import Mathlib

/-!
Verification development for the PortfolioManagement repository
(src/PortfolioManagement/stockdata.py and src/PortfolioManagement/portfolio.py).

The panels are shallowly embedded with exact rationals in place of IEEE
doubles.  Where the pandas/numpy semantics of NaN and infinity matters
(the drifted current weight `0/0` at the first active rebalance step,
pandas' NaN-skipping `Series.sum`), a dedicated scalar type `PV` models
the float special values exactly; everywhere else values stay in `ℚ`.
-/

set_option maxHeartbeats 1000000

namespace PM

/-- Scalar model for a pandas float cell: a finite rational, `+inf`,
`-inf`, or `NaN`.  Mirrors the IEEE semantics of the operations the
source uses (`+`, `-`, `*`, `/`, `abs`, NaN-skipping sum). -/
inductive PV where
  | num (q : ℚ)
  | pinf
  | ninf
  | nan
deriving DecidableEq, Repr

/-- IEEE addition on `PV` (`inf + -inf = NaN`, NaN propagates). -/
def pvAdd : PV → PV → PV
  | .nan, _ => .nan
  | _, .nan => .nan
  | .num a, .num b => .num (a + b)
  | .num _, .pinf => .pinf
  | .num _, .ninf => .ninf
  | .pinf, .num _ => .pinf
  | .ninf, .num _ => .ninf
  | .pinf, .pinf => .pinf
  | .ninf, .ninf => .ninf
  | .pinf, .ninf => .nan
  | .ninf, .pinf => .nan

/-- IEEE negation on `PV`. -/
def pvNeg : PV → PV
  | .num a => .num (-a)
  | .pinf => .ninf
  | .ninf => .pinf
  | .nan => .nan

/-- IEEE subtraction on `PV`. -/
def pvSub (a b : PV) : PV := pvAdd a (pvNeg b)

/-- IEEE multiplication on `PV` (`0 * inf = NaN`, NaN propagates). -/
def pvMul : PV → PV → PV
  | .nan, _ => .nan
  | _, .nan => .nan
  | .num a, .num b => .num (a * b)
  | .num a, .pinf => if a = 0 then .nan else if 0 < a then .pinf else .ninf
  | .num a, .ninf => if a = 0 then .nan else if 0 < a then .ninf else .pinf
  | .pinf, .num b => if b = 0 then .nan else if 0 < b then .pinf else .ninf
  | .ninf, .num b => if b = 0 then .nan else if 0 < b then .ninf else .pinf
  | .pinf, .pinf => .pinf
  | .pinf, .ninf => .ninf
  | .ninf, .pinf => .ninf
  | .ninf, .ninf => .pinf

/-- IEEE absolute value on `PV`. -/
def pvAbs : PV → PV
  | .num a => .num |a|
  | .pinf => .pinf
  | .ninf => .pinf
  | .nan => .nan

/-- Division of two exact rationals with the IEEE special cases:
`0/0 = NaN`, `x/0 = ±inf` for `x ≠ 0` (a denominator that is exactly
zero is the float `+0.0`). -/
def qdivPV (a b : ℚ) : PV :=
  if b ≠ 0 then .num (a / b)
  else if a = 0 then .nan
  else if 0 < a then .pinf
  else .ninf

/-- Whether a `PV` is NaN. -/
def pvIsNan : PV → Bool
  | .nan => true
  | _ => false

/-- Whether a `PV` is a finite number. -/
def pvIsNum : PV → Bool
  | .num _ => true
  | _ => false

/-- The rational value of a finite `PV` (junk `0` otherwise). -/
def pvNumVal : PV → ℚ
  | .num q => q
  | _ => 0

/-- pandas `Series.sum` with its default `skipna=True`: drop the NaN
entries, then add the rest left to right (an all-NaN or empty series
sums to `0`). -/
def pvSumSkipna (l : List PV) : PV :=
  (l.filter (fun x => !pvIsNan x)).foldl pvAdd (PV.num 0)

/-- `StockData` after construction, on clean input (the spec's §3
invariant: fixed asset universe, no missing cells): the three pivoted
panels are total tables over row positions `0..T-1` and `N` assets, with
a strictly increasing date label per row (`pd.pivot` sorts the unique
dates).  `dates` is the embedding of `date_index`. -/
structure StockData (N : ℕ) where
  T : ℕ
  dates : ℕ → ℤ
  ret : ℕ → Fin N → ℚ
  prc : ℕ → Fin N → ℚ
  shrout : ℕ → Fin N → ℚ
  dates_mono : ∀ i j, i < j → j < T → dates i < dates j

/-- `self.mktcap = self.ret * self.shrout` (stockdata.py line 25):
elementwise product of the return and shares-outstanding panels. -/
def mktcap {N : ℕ} (sd : StockData N) (t : ℕ) (a : Fin N) : ℚ :=
  sd.ret t a * sd.shrout t a

/-- `get_ret_til` (stockdata.py lines 36-45):
`self.ret.loc[:self.date_index[when]]`, i.e. the rows of the return
panel whose date label is at most the label of row `when` (a pandas
label slice is inclusive of its endpoint). -/
def get_ret_til {N : ℕ} (sd : StockData N) (when : ℕ) : List (Fin N → ℚ) :=
  ((List.range sd.T).filter (fun i => decide (sd.dates i ≤ sd.dates when))).map sd.ret

/-- Backtester working state: `df_weight` (one weight row per time step,
seeded with zeros by `gen_weight_zeros`) and `pf_ret` (one scalar per
time step, seeded with zeros by `gen_return_zeros`). -/
structure RebState (N : ℕ) where
  w : ℕ → Fin N → ℚ
  r : ℕ → PV

/-- The zero-filled initial state (stockdata.py lines 75-76). -/
def rebInit (N : ℕ) : RebState N :=
  { w := fun _ _ => 0, r := fun _ => PV.num 0 }

/-- One iteration of the rebalance loop (stockdata.py lines 78-93) at
loop counter `cnt`: skip the very first row and rows dated before the
start cutoff; otherwise query the solver at `cnt-1`, drift the stored
step-`(cnt-1)` weight by `1 + ret[cnt-1]`, renormalize it to sum one
(with the float special values of `qdivPV`), store the target weight at
row `cnt`, and record the weighted target return net of
`turnover * transaction_cost`.  The turnover is pandas' NaN-skipping
sum of `|target - current|`. -/
def rebStep {N : ℕ} (sd : StockData N) (pf : ℕ → Fin N → ℚ) (start : ℤ)
    (tc : ℚ) (st : RebState N) (cnt : ℕ) : RebState N :=
  if cnt = 0 ∨ sd.dates cnt < start then st
  else
    { w := fun t => if t = cnt then pf (cnt - 1) else st.w t,
      r := fun t =>
        if t = cnt then
          pvSub (PV.num (∑ a, sd.ret cnt a * pf (cnt - 1) a))
            (pvMul
              (pvSumSkipna (List.ofFn (fun a =>
                pvAbs (pvSub (PV.num (pf (cnt - 1) a))
                  (qdivPV ((1 + sd.ret (cnt - 1) a) * st.w (cnt - 1) a)
                    (∑ b, (1 + sd.ret (cnt - 1) b) * st.w (cnt - 1) b))))))
              (PV.num tc))
        else st.r t }

/-- The full rebalance loop: fold `rebStep` over the row positions. -/
def rebLoop {N : ℕ} (sd : StockData N) (pf : ℕ → Fin N → ℚ) (start : ℤ)
    (tc : ℚ) : RebState N :=
  (List.range sd.T).foldl (rebStep sd pf start tc) (rebInit N)

/-- `rebalance` (stockdata.py line 95): the recorded return series
restricted by `start_condition = self.ret.index > pd.to_datetime(start)`
(strictly after the cutoff), as a list of (date label, value) pairs. -/
def rebalance {N : ℕ} (sd : StockData N) (pf : ℕ → Fin N → ℚ) (start : ℤ)
    (tc : ℚ) : List (ℤ × PV) :=
  ((List.range sd.T).filter (fun t => decide (start < sd.dates t))).map
    (fun t => (sd.dates t, (rebLoop sd pf start tc).r t))

/-- The closed form of the stored weight row `t` once the loop has
passed it: the solver's target for active rows, the zero seed
otherwise. -/
def weightRow {N : ℕ} (sd : StockData N) (pf : ℕ → Fin N → ℚ) (start : ℤ)
    (t : ℕ) : Fin N → ℚ :=
  if t ≠ 0 ∧ ¬sd.dates t < start then pf (t - 1) else fun _ => 0

/-- The drifted holdings entering an active step `t`
(stockdata.py lines 87-88): the stored step-`(t-1)` weight grown by
`1 + ret[t-1]`, divided by its sum. -/
def currentWeight {N : ℕ} (sd : StockData N) (pf : ℕ → Fin N → ℚ)
    (start : ℤ) (t : ℕ) (a : Fin N) : PV :=
  qdivPV ((1 + sd.ret (t - 1) a) * weightRow sd pf start (t - 1) a)
    (∑ b, (1 + sd.ret (t - 1) b) * weightRow sd pf start (t - 1) b)

/-- The turnover charged at an active step `t` (stockdata.py lines
89, 93): the NaN-skipping sum of `|target - current|`. -/
def turnoverOf {N : ℕ} (sd : StockData N) (pf : ℕ → Fin N → ℚ)
    (start : ℤ) (t : ℕ) : PV :=
  pvSumSkipna (List.ofFn (fun a =>
    pvAbs (pvSub (PV.num (pf (t - 1) a)) (currentWeight sd pf start t a))))

/-- The gross weighted return recorded at an active step `t`
(stockdata.py line 92). -/
def stepBase {N : ℕ} (sd : StockData N) (pf : ℕ → Fin N → ℚ) (t : ℕ) : ℚ :=
  ∑ a, sd.ret t a * pf (t - 1) a

/-- The value recorded in `pf_ret` at an active step `t`
(stockdata.py lines 92-93). -/
def stepVal {N : ℕ} (sd : StockData N) (pf : ℕ → Fin N → ℚ) (start : ℤ)
    (tc : ℚ) (t : ℕ) : PV :=
  pvSub (PV.num (stepBase sd pf t))
    (pvMul (turnoverOf sd pf start t) (PV.num tc))

/-- The expanding-window per-asset mean, `ret_window.mean(axis=0)`
(portfolio.py line 65). -/
def windowMean {N : ℕ} (l : List (Fin N → ℚ)) : Fin N → ℚ :=
  fun a => (l.map (fun r => r a)).sum / (l.length : ℚ)

/-- The expanding-window sample covariance, `ret_window.cov()`
(portfolio.py line 66): pandas' default `ddof=1`, dividing the sum of
centered products by `m - 1` for an `m`-row window. -/
def windowCov {N : ℕ} (l : List (Fin N → ℚ)) : Matrix (Fin N) (Fin N) ℚ :=
  Matrix.of fun a b =>
    (l.map (fun r => (r a - windowMean l a) * (r b - windowMean l b))).sum /
      ((l.length : ℚ) - 1)

/-- The per-asset variance computed by `np.std(ret_window, axis=0)`
(portfolio.py line 155) before its square root: numpy forwards its own
default `ddof=0` to `DataFrame.std`, so the sum of squared deviations is
divided by `m`, not `m - 1`. -/
def popVar {N : ℕ} (l : List (Fin N → ℚ)) (a : Fin N) : ℚ :=
  (l.map (fun r => (r a - windowMean l a) ^ 2)).sum / (l.length : ℚ)

/-- `value_weight` (portfolio.py lines 32-42):
`mktcap.loc[t] / mktcap.loc[t].sum()`, with no adjustment for negative
caps. -/
def value_weight {N : ℕ} (sd : StockData N) (when : ℕ) : Fin N → ℚ :=
  fun a => mktcap sd when a / ∑ b, mktcap sd when b

/-- The result object returned by `sp.optimize.minimize`: the final
iterate `x` and the convergence flag `success`. -/
structure OptimizeResult (N : ℕ) where
  x : Fin N → ℚ
  success : Bool

/-- `mean_variance` (portfolio.py lines 55-84).  The external
`sp.optimize.minimize` call is abstracted as a function of the data the
source passes it — the window mean, the window covariance and the
equal-weight initial guess `w0 = e / len(e)` — and the solver returns
`res.x` and nothing else (line 82-84). -/
def mean_variance {N : ℕ}
    (minimize : (Fin N → ℚ) → Matrix (Fin N) (Fin N) ℚ → (Fin N → ℚ) →
      OptimizeResult N)
    (sd : StockData N) (when : ℕ) : Fin N → ℚ :=
  (minimize (windowMean (get_ret_til sd when)) (windowCov (get_ret_til sd when))
    (fun _ => 1 / (N : ℚ))).x

/-- `mean_variance_short_constraint` (portfolio.py lines 86-118): as
`mean_variance` but the optimizer additionally receives the lower-bound
vector `0 * e` (line 112); again only `res.x` is returned. -/
def mean_variance_short_constraint {N : ℕ}
    (minimize : (Fin N → ℚ) → Matrix (Fin N) (Fin N) ℚ → (Fin N → ℚ) →
      (Fin N → ℚ) → OptimizeResult N)
    (sd : StockData N) (when : ℕ) : Fin N → ℚ :=
  (minimize (windowMean (get_ret_til sd when)) (windowCov (get_ret_til sd when))
    (fun _ => 1 / (N : ℚ)) (fun _ => 0)).x

/-- `robust_optimization` (portfolio.py lines 139-168): same optimizer
abstraction; only `res.x` is returned (lines 166-168). -/
def robust_optimization {N : ℕ}
    (minimize : (Fin N → ℚ) → Matrix (Fin N) (Fin N) ℚ → (Fin N → ℚ) →
      OptimizeResult N)
    (sd : StockData N) (when : ℕ) : Fin N → ℚ :=
  (minimize (windowMean (get_ret_til sd when)) (windowCov (get_ret_til sd when))
    (fun _ => 1 / (N : ℚ))).x

/-- `min_var` (portfolio.py lines 120-137): solve `Σ w = 1⃗` directly
(`np.linalg.solve`, which raises `LinAlgError` on a singular matrix —
modelled as `none`), then normalize by `np.sum(weight)`. -/
def min_var {N : ℕ} (sd : StockData N) (when : ℕ) : Option (Fin N → ℚ) :=
  let C := windowCov (get_ret_til sd when)
  if C.det = 0 then none
  else
    let raw := C.det⁻¹ • C.adjugate.mulVec (fun _ => 1)
    some (fun a => raw a / ∑ b, raw b)

/-- The objective `fobj` of `robust_optimization` (portfolio.py line
155), parametric in the square-root routine `sq` (the code's
`np.sqrt` / the square root inside `np.std`):
`-(w @ mu - np.abs(w) @ np.std(ret_window, axis=0)) / np.sqrt(w' C w)`,
where `np.std` is the square root of the `ddof=0` variance `popVar`. -/
def robustFobj {N : ℕ} {K : Type} [LinearOrderedField K] (sq : K → K)
    (l : List (Fin N → ℚ)) (w : Fin N → K) : K :=
  -((∑ a, w a * ((windowMean l a : ℚ) : K)) -
      ∑ a, |w a| * sq ((popVar l a : ℚ) : K)) /
    sq (∑ a, ∑ b, w a * ((windowCov l a b : ℚ) : K) * w b)

/-- The robust objective as the spec's §4.2 table words it:
`(w·μ - Σ_a |w_a|·σ_a) / sqrt(w'Σw)` with `σ_a` the per-asset SAMPLE
standard deviation over the window, i.e. the square root of the
`ddof=1` variance `windowCov l a a` — the same convention as the
sample covariance in the denominator. -/
def robustObjectiveSpec {N : ℕ} {K : Type} [LinearOrderedField K]
    (sq : K → K) (l : List (Fin N → ℚ)) (w : Fin N → K) : K :=
  ((∑ a, w a * ((windowMean l a : ℚ) : K)) -
      ∑ a, |w a| * sq ((windowCov l a a : ℚ) : K)) /
    sq (∑ a, ∑ b, w a * ((windowCov l a b : ℚ) : K) * w b)

/-- A raw long-format record, one row of the input frame: fields
`date`, `permno`, `ret`, `prc`, `shrout`. -/
structure RawRecord where
  date : ℤ
  permno : ℤ
  ret : ℚ
  prc : ℚ
  shrout : ℚ

/-- One cell of a `pd.pivot` result: the field value of the record with
the given date and permno, or NaN (`none`) when no such record exists. -/
def pivotCell (recs : List RawRecord) (f : RawRecord → ℚ) (d p : ℤ) :
    Option ℚ :=
  (recs.find? (fun r => decide (r.date = d) && decide (r.permno = p))).map f

/-- Insert into a sorted duplicate-free list of labels. -/
def sortedInsert (x : ℤ) : List ℤ → List ℤ
  | [] => [x]
  | y :: ys =>
    if x < y then x :: y :: ys
    else if x = y then y :: ys
    else y :: sortedInsert x ys

/-- Sorted deduplicated label list (the index/columns a pivot builds). -/
def sortDedup (l : List ℤ) : List ℤ := l.foldr sortedInsert []

/-- The pivoted panels a `StockData.__init__` builds (stockdata.py
lines 20-26): one wide table per field, plus
`mktcap = ret * shrout` (line 25), whose cells are NaN whenever either
factor is NaN. -/
structure PivotPanels where
  dates : List ℤ
  permnos : List ℤ
  ret : ℤ → ℤ → Option ℚ
  prc : ℤ → ℤ → Option ℚ
  shrout : ℤ → ℤ → Option ℚ
  mktcap : ℤ → ℤ → Option ℚ

/-- The panels obtained by pivoting a record list. -/
def pivotPanels (recs : List RawRecord) : PivotPanels :=
  { dates := sortDedup (recs.map (fun r => r.date)),
    permnos := sortDedup (recs.map (fun r => r.permno)),
    ret := pivotCell recs (fun r => r.ret),
    prc := pivotCell recs (fun r => r.prc),
    shrout := pivotCell recs (fun r => r.shrout),
    mktcap := fun d p =>
      match pivotCell recs (fun r => r.ret) d p,
          pivotCell recs (fun r => r.shrout) d p with
      | some x, some y => some (x * y)
      | _, _ => none }

/-- `StockData.__init__` (stockdata.py lines 20-26): three `pd.pivot`
calls plus the derived `mktcap`.  `pd.pivot` raises only when the
(date, permno) pairs contain duplicates; nothing else is validated. -/
def mkStockData (recs : List RawRecord) : Except String PivotPanels :=
  if (recs.map (fun r => (r.date, r.permno))).Nodup then
    Except.ok (pivotPanels recs)
  else Except.error "Index contains duplicate entries, cannot reshape"

/-- Whether an `Except` is a success. -/
def exOk {α β : Type} : Except α β → Bool
  | .ok _ => true
  | .error _ => false

lemma rebStep_char {N : ℕ} (sd : StockData N) (pf : ℕ → Fin N → ℚ)
    (start : ℤ) (tc : ℚ) (m : ℕ) (st : RebState N)
    (ihw : ∀ t, st.w t =
      if t < m ∧ t ≠ 0 ∧ ¬sd.dates t < start then pf (t - 1) else fun _ => 0)
    (ihr : ∀ t, st.r t =
      if t < m ∧ t ≠ 0 ∧ ¬sd.dates t < start then stepVal sd pf start tc t
      else PV.num 0) :
    (∀ t, (rebStep sd pf start tc st m).w t =
      if t < m + 1 ∧ t ≠ 0 ∧ ¬sd.dates t < start then pf (t - 1)
      else fun _ => 0) ∧
    (∀ t, (rebStep sd pf start tc st m).r t =
      if t < m + 1 ∧ t ≠ 0 ∧ ¬sd.dates t < start then stepVal sd pf start tc t
      else PV.num 0) := by
  by_cases hskip : m = 0 ∨ sd.dates m < start
  · rw [rebStep, if_pos hskip]
    have hcond : ∀ t, ¬(t < m ∧ t ≠ 0 ∧ ¬sd.dates t < start) →
        ¬(t < m + 1 ∧ t ≠ 0 ∧ ¬sd.dates t < start) := by
      rintro t hc ⟨h1, h2⟩
      apply hc
      rcases Nat.lt_succ_iff_lt_or_eq.mp h1 with h | h
      · exact ⟨h, h2⟩
      · subst h
        rcases hskip with h' | h'
        · exact absurd h' h2.1
        · exact absurd h' h2.2
    constructor
    · intro t
      rw [ihw t]
      by_cases hc : t < m ∧ t ≠ 0 ∧ ¬sd.dates t < start
      · rw [if_pos hc, if_pos ⟨Nat.lt_succ_of_lt hc.1, hc.2⟩]
      · rw [if_neg hc, if_neg (hcond t hc)]
    · intro t
      rw [ihr t]
      by_cases hc : t < m ∧ t ≠ 0 ∧ ¬sd.dates t < start
      · rw [if_pos hc, if_pos ⟨Nat.lt_succ_of_lt hc.1, hc.2⟩]
      · rw [if_neg hc, if_neg (hcond t hc)]
  · push_neg at hskip
    obtain ⟨hm0, hms⟩ := hskip
    rw [rebStep, if_neg (by push_neg; exact ⟨hm0, hms⟩)]
    have hw1 : st.w (m - 1) = weightRow sd pf start (m - 1) := by
      rw [ihw (m - 1), weightRow]
      have h1 : m - 1 < m := Nat.sub_lt (Nat.pos_of_ne_zero hm0) one_pos
      simp only [h1, true_and]
    have hcond : ∀ t, t ≠ m →
        ((t < m + 1 ∧ t ≠ 0 ∧ ¬sd.dates t < start) ↔
          (t < m ∧ t ≠ 0 ∧ ¬sd.dates t < start)) := by
      intro t htm
      constructor
      · rintro ⟨h1, h2⟩
        rcases Nat.lt_succ_iff_lt_or_eq.mp h1 with h | h
        · exact ⟨h, h2⟩
        · exact absurd h htm
      · rintro ⟨h1, h2⟩
        exact ⟨Nat.lt_succ_of_lt h1, h2⟩
    constructor
    · intro t
      by_cases htm : t = m
      · subst htm
        simp only [eq_self_iff_true, if_true]
        have hP : t < t + 1 ∧ t ≠ 0 ∧ ¬sd.dates t < start :=
          ⟨Nat.lt_succ_self t, hm0, not_lt.mpr hms⟩
        rw [if_pos hP]
      · simp only [if_neg htm]
        rw [ihw t]
        by_cases hc : t < m ∧ t ≠ 0 ∧ ¬sd.dates t < start
        · rw [if_pos hc, if_pos ((hcond t htm).mpr hc)]
        · rw [if_neg hc, if_neg (fun h => hc ((hcond t htm).mp h))]
    · intro t
      by_cases htm : t = m
      · subst htm
        simp only [eq_self_iff_true, if_true]
        have hP : t < t + 1 ∧ t ≠ 0 ∧ ¬sd.dates t < start :=
          ⟨Nat.lt_succ_self t, hm0, not_lt.mpr hms⟩
        rw [if_pos hP]
        simp only [stepVal, turnoverOf, currentWeight, stepBase, hw1]
      · simp only [if_neg htm]
        rw [ihr t]
        by_cases hc : t < m ∧ t ≠ 0 ∧ ¬sd.dates t < start
        · rw [if_pos hc, if_pos ((hcond t htm).mpr hc)]
        · rw [if_neg hc, if_neg (fun h => hc ((hcond t htm).mp h))]

lemma rebFold_spec {N : ℕ} (sd : StockData N) (pf : ℕ → Fin N → ℚ)
    (start : ℤ) (tc : ℚ) (m : ℕ) :
    (∀ t, ((List.range m).foldl (rebStep sd pf start tc) (rebInit N)).w t =
      if t < m ∧ t ≠ 0 ∧ ¬sd.dates t < start then pf (t - 1)
      else fun _ => 0) ∧
    (∀ t, ((List.range m).foldl (rebStep sd pf start tc) (rebInit N)).r t =
      if t < m ∧ t ≠ 0 ∧ ¬sd.dates t < start then stepVal sd pf start tc t
      else PV.num 0) := by
  induction m with
  | zero => simp [rebInit]
  | succ m ih =>
    rw [List.range_succ, List.foldl_append, List.foldl_cons, List.foldl_nil]
    exact rebStep_char sd pf start tc m _ ih.1 ih.2

/-- The final stored-weight table row by row. -/
lemma rebLoop_w {N : ℕ} (sd : StockData N) (pf : ℕ → Fin N → ℚ)
    (start : ℤ) (tc : ℚ) (t : ℕ) :
    (rebLoop sd pf start tc).w t =
      if t < sd.T ∧ t ≠ 0 ∧ ¬sd.dates t < start then pf (t - 1)
      else fun _ => 0 :=
  (rebFold_spec sd pf start tc sd.T).1 t

/-- The final recorded-return table row by row. -/
lemma rebLoop_r {N : ℕ} (sd : StockData N) (pf : ℕ → Fin N → ℚ)
    (start : ℤ) (tc : ℚ) (t : ℕ) :
    (rebLoop sd pf start tc).r t =
      if t < sd.T ∧ t ≠ 0 ∧ ¬sd.dates t < start then stepVal sd pf start tc t
      else PV.num 0 :=
  (rebFold_spec sd pf start tc sd.T).2 t

lemma pvSub_num (a b : ℚ) : pvSub (PV.num a) (PV.num b) = PV.num (a - b) := by
  simp [pvSub, pvAdd, pvNeg, sub_eq_add_neg]

lemma pvMul_num (a b : ℚ) : pvMul (PV.num a) (PV.num b) = PV.num (a * b) := rfl

lemma foldl_pvAdd_num (l : List ℚ) :
    ∀ q : ℚ, (l.map PV.num).foldl pvAdd (PV.num q) = PV.num (q + l.sum) := by
  induction l with
  | nil => intro q; simp
  | cons x xs ih =>
    intro q
    simp only [List.map_cons, List.foldl_cons, List.sum_cons]
    rw [show pvAdd (PV.num q) (PV.num x) = PV.num (q + x) from rfl, ih]
    ring_nf

lemma pvSumSkipna_num (l : List ℚ) :
    pvSumSkipna (l.map PV.num) = PV.num l.sum := by
  unfold pvSumSkipna
  rw [List.filter_eq_self.mpr, foldl_pvAdd_num, zero_add]
  intro x hx
  rw [List.mem_map] at hx
  obtain ⟨q, _, rfl⟩ := hx
  rfl

lemma pvSumSkipna_all_nan (l : List PV) (h : ∀ x ∈ l, x = PV.nan) :
    pvSumSkipna l = PV.num 0 := by
  unfold pvSumSkipna
  rw [List.filter_eq_nil_iff.mpr, List.foldl_nil]
  intro x hx
  rw [h x hx]
  simp [pvIsNan]

/-- At the first active step of a run the prior stored row is the zero
seed, so every drifted entry is `0/0 = NaN` and the NaN-skipping
turnover sum is `0`. -/
lemma first_active_current_nan {N : ℕ} (sd : StockData N)
    (pf : ℕ → Fin N → ℚ) (start : ℤ) (t : ℕ) (h0 : t ≠ 0)
    (hfirst : ∀ j, j < t → j = 0 ∨ sd.dates j < start) :
    (∀ a, currentWeight sd pf start t a = PV.nan) ∧
    turnoverOf sd pf start t = PV.num 0 := by
  have hw : weightRow sd pf start (t - 1) = fun _ => 0 := by
    unfold weightRow
    rcases hfirst (t - 1) (Nat.sub_lt (Nat.pos_of_ne_zero h0) one_pos) with h | h
    · exact if_neg (fun hc => hc.1 h)
    · exact if_neg (fun hc => hc.2 h)
  have hcur : ∀ a, currentWeight sd pf start t a = PV.nan := by
    intro a
    unfold currentWeight
    rw [hw]
    simp [qdivPV]
  refine ⟨hcur, ?_⟩
  unfold turnoverOf
  apply pvSumSkipna_all_nan
  intro x hx
  rw [List.mem_ofFn] at hx
  obtain ⟨a, rfl⟩ := hx
  simp only [hcur]
  rfl

/-- Concrete two-asset, three-step panel used by witnesses and
counterexamples. -/
def sdEx : StockData 2 :=
  { T := 3,
    dates := fun t => (t : ℤ),
    ret := fun t a =>
      if t = 0 then (if a = 0 then 2 else 0)
      else if t = 1 then 0
      else if a = 0 then 1 / 10 else 1 / 5,
    prc := fun _ _ => 3,
    shrout := fun _ _ => 1,
    dates_mono := by
      intro i j hij _
      show (i : ℤ) < (j : ℤ)
      exact_mod_cast hij }

/-- Concrete solver-output sequence used by witnesses. -/
def pfEx : ℕ → Fin 2 → ℚ :=
  fun t a => if t = 0 then 1 / 2 else if a = 0 then 1 else 0

/-- C1: at every active backtest step `t` (`t > 0`, date at/after the
start cutoff), the recorded step-`t` return is
`sum(ret[t] * target) - turnover * transaction_cost` with
`target = solver (t-1)`, the turnover being the (NaN-skipping) sum of
`|target - current_weight|`, and `current_weight` the step-`(t-1)`
stored weight grown elementwise by `1 + ret[t-1]` and divided by its
sum. -/
theorem rebalance_active_step_formula {N : ℕ} (sd : StockData N)
    (pf : ℕ → Fin N → ℚ) (start : ℤ) (tc : ℚ) (t : ℕ)
    (ht : t < sd.T) (h0 : t ≠ 0) (hs : ¬sd.dates t < start) :
    (rebLoop sd pf start tc).r t =
      pvSub (PV.num (∑ a, sd.ret t a * pf (t - 1) a))
        (pvMul (turnoverOf sd pf start t) (PV.num tc)) ∧
    (∀ a, currentWeight sd pf start t a =
      qdivPV ((1 + sd.ret (t - 1) a) * weightRow sd pf start (t - 1) a)
        (∑ b, (1 + sd.ret (t - 1) b) * weightRow sd pf start (t - 1) b)) ∧
    turnoverOf sd pf start t =
      pvSumSkipna (List.ofFn (fun a =>
        pvAbs (pvSub (PV.num (pf (t - 1) a))
          (currentWeight sd pf start t a)))) := by
  refine ⟨?_, fun a => rfl, rfl⟩
  rw [rebLoop_r, if_pos ⟨ht, h0, hs⟩]
  rfl

/-- Witness for C1 at a concrete panel, solver sequence and step. -/
theorem rebalance_active_step_formula_witness :
    ((2 < sdEx.T ∧ (2 : ℕ) ≠ 0 ∧ ¬sdEx.dates 2 < 1) ∧
      (rebLoop sdEx pfEx 1 (3 / 100)).r 2 =
        pvSub (PV.num (∑ a, sdEx.ret 2 a * pfEx 1 a))
          (pvMul (turnoverOf sdEx pfEx 1 2) (PV.num (3 / 100)))) :=
  ⟨⟨by decide, by decide, by decide⟩,
    (rebalance_active_step_formula sdEx pfEx 1 (3 / 100) 2 (by decide)
      (by decide) (by decide)).1⟩

/-- C2: the very first time step is always skipped — its weight row
stays the zero seed and its recorded return stays `0` — for every start
cutoff, and the returned series holds exactly the entries of the time
steps whose date is strictly after the cutoff. -/
theorem rebalance_skips_first_and_filters {N : ℕ} (sd : StockData N)
    (pf : ℕ → Fin N → ℚ) (start : ℤ) (tc : ℚ) :
    ((rebLoop sd pf start tc).w 0 = fun _ => 0) ∧
    ((rebLoop sd pf start tc).r 0 = PV.num 0) ∧
    (∀ d v, (d, v) ∈ rebalance sd pf start tc ↔
      ∃ t, t < sd.T ∧ start < sd.dates t ∧ d = sd.dates t ∧
        v = (rebLoop sd pf start tc).r t) := by
  refine ⟨?_, ?_, ?_⟩
  · rw [rebLoop_w, if_neg (fun h => h.2.1 rfl)]
  · rw [rebLoop_r, if_neg (fun h => h.2.1 rfl)]
  · intro d v
    constructor
    · intro h
      rw [rebalance, List.mem_map] at h
      obtain ⟨t, htmem, heq⟩ := h
      rw [List.mem_filter, List.mem_range] at htmem
      refine ⟨t, htmem.1, of_decide_eq_true htmem.2, ?_, ?_⟩
      · exact (congrArg Prod.fst heq).symm
      · exact (congrArg Prod.snd heq).symm
    · rintro ⟨t, h1, h2, rfl, rfl⟩
      rw [rebalance, List.mem_map]
      exact ⟨t, List.mem_filter.mpr ⟨List.mem_range.mpr h1, decide_eq_true h2⟩,
        rfl⟩

/-- C10: at the first active step of every run the drifted
current-weight entries are all NaN (`0/0` from the all-zeros seed row),
the NaN-skipping turnover sum is `0`, and the recorded return is the
plain weighted target return with no transaction-cost deduction, for
every transaction-cost rate. -/
theorem first_active_step_no_cost {N : ℕ} (sd : StockData N)
    (pf : ℕ → Fin N → ℚ) (start : ℤ) (tc : ℚ) (t : ℕ)
    (ht : t < sd.T) (h0 : t ≠ 0) (hs : ¬sd.dates t < start)
    (hfirst : ∀ j, j < t → j = 0 ∨ sd.dates j < start) :
    (∀ a, currentWeight sd pf start t a = PV.nan) ∧
    turnoverOf sd pf start t = PV.num 0 ∧
    (rebLoop sd pf start tc).r t =
      PV.num (∑ a, sd.ret t a * pf (t - 1) a) := by
  obtain ⟨hcur, hturn⟩ := first_active_current_nan sd pf start t h0 hfirst
  refine ⟨hcur, hturn, ?_⟩
  rw [rebLoop_r, if_pos ⟨ht, h0, hs⟩]
  simp only [stepVal, stepBase, hturn]
  simp [pvMul_num, pvSub_num]

/-- Witness for C10 at a concrete panel: step 1 is the first active
step when the cutoff is date 1. -/
theorem first_active_step_no_cost_witness :
    ((1 < sdEx.T ∧ (1 : ℕ) ≠ 0 ∧ ¬sdEx.dates 1 < 1 ∧
        ∀ j, j < 1 → j = 0 ∨ sdEx.dates j < 1) ∧
      (rebLoop sdEx pfEx 1 (7 / 100)).r 1 =
        PV.num (∑ a, sdEx.ret 1 a * pfEx 0 a)) :=
  ⟨⟨by decide, by decide, by decide, by decide⟩,
    (first_active_step_no_cost sdEx pfEx 1 (7 / 100) 1 (by decide) (by decide)
      (by decide) (by decide)).2.2⟩

/-- The label slice `ret.loc[:date_index[t]]` over the sorted unique
pivot index is exactly the first `t + 1` rows. -/
lemma get_ret_til_eq {N : ℕ} (sd : StockData N) (t : ℕ) (ht : t < sd.T) :
    get_ret_til sd t = (List.range (t + 1)).map sd.ret := by
  unfold get_ret_til
  have hT : sd.T = (t + 1) + (sd.T - (t + 1)) := by omega
  rw [hT, List.range_add, List.filter_append]
  have h1 : (List.range (t + 1)).filter
      (fun i => decide (sd.dates i ≤ sd.dates t)) = List.range (t + 1) := by
    apply List.filter_eq_self.mpr
    intro i hi
    rw [List.mem_range] at hi
    apply decide_eq_true
    rcases Nat.lt_succ_iff_lt_or_eq.mp hi with h | h
    · exact le_of_lt (sd.dates_mono i t h ht)
    · subst h; exact le_refl _
  have h2 : ((List.range (sd.T - (t + 1))).map (fun x => t + 1 + x)).filter
      (fun i => decide (sd.dates i ≤ sd.dates t)) = [] := by
    apply List.filter_eq_nil_iff.mpr
    intro i hi
    rw [List.mem_map] at hi
    obtain ⟨x, hx, rfl⟩ := hi
    rw [List.mem_range] at hx
    simp only [decide_eq_true_eq, not_le]
    exact sd.dates_mono t (t + 1 + x) (by omega) (by omega)
  rw [h1, h2, List.append_nil]

/-- C8: the expanding-window accessor `get_ret_til` returns exactly the
return rows for time steps `0 .. t` inclusive, so its row count is
`t + 1` and grows strictly with `t`. -/
theorem returns_until_window {N : ℕ} (sd : StockData N) (t : ℕ)
    (ht : t < sd.T) :
    get_ret_til sd t = (List.range (t + 1)).map sd.ret ∧
    (get_ret_til sd t).length = t + 1 ∧
    (∀ u, t < u → u < sd.T →
      (get_ret_til sd t).length < (get_ret_til sd u).length) := by
  have h := get_ret_til_eq sd t ht
  refine ⟨h, ?_, ?_⟩
  · rw [h, List.length_map, List.length_range]
  · intro u hu huT
    rw [h, get_ret_til_eq sd u huT, List.length_map, List.length_range,
      List.length_map, List.length_range]
    omega

/-- Witness for C8 on the concrete panel. -/
theorem returns_until_window_witness :
    (1 < sdEx.T) ∧ (get_ret_til sdEx 1).length = 1 + 1 :=
  ⟨by decide, (returns_until_window sdEx 1 (by decide)).2.1⟩

/-- C6: the derived market-cap panel is literally
`return * shares_outstanding` — in the clean-panel model, in the pivot
model (cellwise, whenever both factors are present), and demonstrably
NOT `price * shares_outstanding` on a concrete panel — and
`value_weight` divides the date-`t` market-cap cross-section by its sum,
with no re-normalization for negative caps. -/
theorem mktcap_and_value_weight {N : ℕ} (sd : StockData N) :
    (∀ t a, mktcap sd t a = sd.ret t a * sd.shrout t a) ∧
    (∀ when a, value_weight sd when a =
      mktcap sd when a / ∑ b, mktcap sd when b) ∧
    (∀ recs d p x y, (pivotPanels recs).ret d p = some x →
      (pivotPanels recs).shrout d p = some y →
      (pivotPanels recs).mktcap d p = some (x * y)) ∧
    mktcap sdEx 0 0 ≠ sdEx.prc 0 0 * sdEx.shrout 0 0 := by
  refine ⟨fun t a => rfl, fun when a => rfl, ?_, by norm_num [mktcap, sdEx]⟩
  intro recs d p x y hx hy
  show (match pivotCell recs (fun r => r.ret) d p,
      pivotCell recs (fun r => r.shrout) d p with
    | some x, some y => some (x * y)
    | _, _ => none) = some (x * y)
  rw [show (pivotPanels recs).ret = pivotCell recs (fun r => r.ret) from rfl]
    at hx
  rw [show (pivotPanels recs).shrout = pivotCell recs (fun r => r.shrout)
    from rfl] at hy
  rw [hx, hy]

/-- A stub optimizer that reports convergence. -/
def optConv : (Fin 2 → ℚ) → Matrix (Fin 2) (Fin 2) ℚ → (Fin 2 → ℚ) →
    OptimizeResult 2 :=
  fun _ _ _ => { x := fun _ => 1 / 2, success := true }

/-- A stub optimizer identical to `optConv` except that it reports
NON-convergence (iteration cap hit). -/
def optStuck : (Fin 2 → ℚ) → Matrix (Fin 2) (Fin 2) ℚ → (Fin 2 → ℚ) →
    OptimizeResult 2 :=
  fun _ _ _ => { x := fun _ => 1 / 2, success := false }

/-- Bounded variant of `optConv` (for the short-sale solver). -/
def optConvB : (Fin 2 → ℚ) → Matrix (Fin 2) (Fin 2) ℚ → (Fin 2 → ℚ) →
    (Fin 2 → ℚ) → OptimizeResult 2 :=
  fun _ _ _ _ => { x := fun _ => 1 / 2, success := true }

/-- Bounded variant of `optStuck`. -/
def optStuckB : (Fin 2 → ℚ) → Matrix (Fin 2) (Fin 2) ℚ → (Fin 2 → ℚ) →
    (Fin 2 → ℚ) → OptimizeResult 2 :=
  fun _ _ _ _ => { x := fun _ => 1 / 2, success := false }

/-- C3 counterexample: each optimizer-based solver returns a bare
weight vector carrying no convergence information — an optimizer run
that reports non-convergence (`success := false`) produces an output
identical to one that reports convergence, and that output is exactly
the bare iterate `res.x`, refuting the claim that a non-convergence
flag is returned alongside the weights. -/
theorem solvers_no_convergence_flag_cx :
    mean_variance optStuck sdEx 1 = mean_variance optConv sdEx 1 ∧
    mean_variance optStuck sdEx 1 = (fun _ => 1 / 2) ∧
    mean_variance_short_constraint optStuckB sdEx 1 =
      mean_variance_short_constraint optConvB sdEx 1 ∧
    mean_variance_short_constraint optStuckB sdEx 1 = (fun _ => 1 / 2) ∧
    robust_optimization optStuck sdEx 1 = robust_optimization optConv sdEx 1 ∧
    robust_optimization optStuck sdEx 1 = (fun _ => 1 / 2) :=
  ⟨rfl, rfl, rfl, rfl, rfl, rfl⟩

/-- C3 amended: when the optimizer stops (converged or not), each
optimizer-based solver returns only the final iterate `res.x`; the
convergence flag `res.success` is discarded and no convergence
indication reaches the caller. -/
theorem solvers_return_bare_iterate {N : ℕ}
    (minimize : (Fin N → ℚ) → Matrix (Fin N) (Fin N) ℚ → (Fin N → ℚ) →
      OptimizeResult N)
    (minimizeB : (Fin N → ℚ) → Matrix (Fin N) (Fin N) ℚ → (Fin N → ℚ) →
      (Fin N → ℚ) → OptimizeResult N)
    (sd : StockData N) (when : ℕ) :
    mean_variance minimize sd when =
      (minimize (windowMean (get_ret_til sd when))
        (windowCov (get_ret_til sd when)) (fun _ => 1 / (N : ℚ))).x ∧
    mean_variance_short_constraint minimizeB sd when =
      (minimizeB (windowMean (get_ret_til sd when))
        (windowCov (get_ret_til sd when)) (fun _ => 1 / (N : ℚ))
        (fun _ => 0)).x ∧
    robust_optimization minimize sd when =
      (minimize (windowMean (get_ret_til sd when))
        (windowCov (get_ret_til sd when)) (fun _ => 1 / (N : ℚ))).x :=
  ⟨rfl, rfl, rfl⟩

/-- Long-format input whose asset sets differ across the two dates
(asset 1 on date 0 only, asset 2 on date 1 only), so both cross-asset
consistency and cell completeness fail. -/
def cx4recs : List RawRecord :=
  [{ date := 0, permno := 1, ret := 1 / 10, prc := 5, shrout := 100 },
   { date := 1, permno := 2, ret := 1 / 5, prc := 6, shrout := 200 }]

/-- C4 counterexample: construction does NOT fail on a record set with
mismatched asset sets and missing (time, asset) cells — it succeeds and
produces a store whose missing cells are NaN (`none`), refuting the
claim that a `MalformedInputError` aborts construction. -/
theorem construction_accepts_malformed_cx :
    mkStockData cx4recs = Except.ok (pivotPanels cx4recs) ∧
    (pivotPanels cx4recs).ret 0 2 = none ∧
    (pivotPanels cx4recs).ret 1 1 = none ∧
    (pivotPanels cx4recs).ret 0 1 = some (1 / 10) := by
  refine ⟨?_, by decide, by decide,
    by simp [pivotPanels, pivotCell, cx4recs, List.find?]⟩
  unfold mkStockData
  rw [if_pos (show (cx4recs.map (fun r => (r.date, r.permno))).Nodup
    by decide)]

/-- C4 amended: `StockData` construction performs no validation: for
every record set whose (time, asset) key pairs are distinct — including
sets with inconsistent asset ids across time steps or missing cells —
construction succeeds with the pivoted panels, a cell being NaN
(`none`) exactly when no record carries its (time, asset) pair.
(`pd.pivot` fails only on duplicate key pairs.) -/
theorem construction_no_validation (recs : List RawRecord)
    (h : (recs.map (fun r => (r.date, r.permno))).Nodup) :
    mkStockData recs = Except.ok (pivotPanels recs) ∧
    ∀ d p, ((pivotPanels recs).ret d p = none ↔
      ∀ r ∈ recs, ¬(r.date = d ∧ r.permno = p)) := by
  constructor
  · unfold mkStockData
    rw [if_pos h]
  · intro d p
    show pivotCell recs (fun r => r.ret) d p = none ↔ _
    unfold pivotCell
    rw [Option.map_eq_none', List.find?_eq_none]
    simp only [Bool.and_eq_true, decide_eq_true_eq, not_and]

/-- Witness for C4's amended claim at the concrete malformed input. -/
theorem construction_no_validation_witness :
    (cx4recs.map (fun r => (r.date, r.permno))).Nodup ∧
      mkStockData cx4recs = Except.ok (pivotPanels cx4recs) :=
  ⟨by decide, (construction_no_validation cx4recs (by decide)).1⟩

lemma pvIsNum_eq (x : PV) (h : pvIsNum x = true) :
    x = PV.num (pvNumVal x) := by
  cases x with
  | num q => rfl
  | pinf => simp [pvIsNum] at h
  | ninf => simp [pvIsNum] at h
  | nan => simp [pvIsNum] at h

lemma foldl_pvAdd_pinf (l : List PV)
    (h : ∀ x ∈ l, x ≠ PV.ninf ∧ x ≠ PV.nan) :
    l.foldl pvAdd PV.pinf = PV.pinf := by
  induction l with
  | nil => rfl
  | cons x xs ih =>
    have hx := h x (List.mem_cons_self x xs)
    have hadd : pvAdd PV.pinf x = PV.pinf := by
      cases x with
      | num q => rfl
      | pinf => rfl
      | ninf => exact absurd rfl hx.1
      | nan => exact absurd rfl hx.2
    rw [List.foldl_cons, hadd]
    exact ih (fun y hy => h y (List.mem_cons_of_mem x hy))

lemma foldl_pvAdd_nonneg (l : List PV)
    (h : ∀ x ∈ l, (∃ q, x = PV.num q ∧ 0 ≤ q) ∨ x = PV.pinf) :
    ∀ a : ℚ, 0 ≤ a → ∀ q, l.foldl pvAdd (PV.num a) = PV.num q → 0 ≤ q := by
  induction l with
  | nil =>
    intro a ha q hq
    rw [List.foldl_nil] at hq
    injection hq with h'
    rwa [← h']
  | cons x xs ih =>
    intro a ha q hq
    have hrest : ∀ y ∈ xs, (∃ r, y = PV.num r ∧ 0 ≤ r) ∨ y = PV.pinf :=
      fun y hy => h y (List.mem_cons_of_mem x hy)
    rcases h x (List.mem_cons_self x xs) with ⟨b, rfl, hb⟩ | rfl
    · rw [List.foldl_cons,
        show pvAdd (PV.num a) (PV.num b) = PV.num (a + b) from rfl] at hq
      exact ih hrest (a + b) (add_nonneg ha hb) q hq
    · rw [List.foldl_cons, show pvAdd (PV.num a) PV.pinf = PV.pinf from rfl,
        foldl_pvAdd_pinf xs ?_] at hq
      · exact absurd hq (by simp)
      · intro y hy
        rcases hrest y hy with ⟨r, rfl, _⟩ | rfl
        · exact ⟨by simp, by simp⟩
        · exact ⟨by simp, by simp⟩

lemma pvAbs_cases (z : PV) :
    (∃ q, pvAbs z = PV.num q ∧ 0 ≤ q) ∨ pvAbs z = PV.pinf ∨
      pvAbs z = PV.nan := by
  cases z with
  | num q => exact Or.inl ⟨|q|, rfl, abs_nonneg q⟩
  | pinf => exact Or.inr (Or.inl rfl)
  | ninf => exact Or.inr (Or.inl rfl)
  | nan => exact Or.inr (Or.inr rfl)

/-- A finite turnover value is non-negative: it is a NaN-skipping sum
of absolute values. -/
lemma turnover_nonneg {N : ℕ} (sd : StockData N) (pf : ℕ → Fin N → ℚ)
    (start : ℤ) (t : ℕ) (q : ℚ)
    (hq : turnoverOf sd pf start t = PV.num q) : 0 ≤ q := by
  unfold turnoverOf pvSumSkipna at hq
  refine foldl_pvAdd_nonneg _ ?_ 0 le_rfl q hq
  intro x hx
  rw [List.mem_filter] at hx
  obtain ⟨hm, hnan⟩ := hx
  rw [List.mem_ofFn] at hm
  obtain ⟨a, ha⟩ := hm
  rcases pvAbs_cases (pvSub (PV.num (pf (t - 1) a))
      (currentWeight sd pf start t a)) with hc | hc | hc
  · exact Or.inl (ha ▸ hc)
  · exact Or.inr (ha ▸ hc)
  · have hx : x = PV.nan := by rw [← ha]; exact hc
    rw [hx] at hnan
    simp [pvIsNan] at hnan

lemma list_sum_le {α : Type} (l : List α) (f g : α → ℚ)
    (h : ∀ x ∈ l, f x ≤ g x) : (l.map f).sum ≤ (l.map g).sum := by
  induction l with
  | nil => simp
  | cons x xs ih =>
    simp only [List.map_cons, List.sum_cons]
    exact add_le_add (h x (List.mem_cons_self x xs))
      (ih (fun y hy => h y (List.mem_cons_of_mem x hy)))

lemma list_sum_lt {α : Type} (l : List α) (f g : α → ℚ)
    (h : ∀ x ∈ l, f x ≤ g x) (x0 : α) (hx0 : x0 ∈ l) (hlt : f x0 < g x0) :
    (l.map f).sum < (l.map g).sum := by
  induction l with
  | nil => cases hx0
  | cons x xs ih =>
    simp only [List.map_cons, List.sum_cons]
    have hrest : ∀ y ∈ xs, f y ≤ g y :=
      fun y hy => h y (List.mem_cons_of_mem x hy)
    rcases List.mem_cons.mp hx0 with rfl | hx0'
    · exact add_lt_add_of_lt_of_le hlt (list_sum_le xs f g hrest)
    · exact add_lt_add_of_le_of_lt (h x (List.mem_cons_self x xs))
        (ih hrest hx0')

/-- The cumulative realized return of a backtest run: the sum (pandas
NaN-skipping) of the values of the series `rebalance` returns. -/
def cumReturn {N : ℕ} (sd : StockData N) (pf : ℕ → Fin N → ℚ)
    (start : ℤ) (tc : ℚ) : PV :=
  pvSumSkipna ((rebalance sd pf start tc).map Prod.snd)

/-- C9: for a fixed panel, cutoff and solver-output sequence, whenever
every active step's turnover is finite, the cumulative realized return
is monotonically non-increasing in the transaction-cost rate, and
strictly decreasing whenever the rate strictly increases and some
active step has strictly positive turnover. -/
theorem transaction_cost_monotone {N : ℕ} (sd : StockData N)
    (pf : ℕ → Fin N → ℚ) (start : ℤ) (tc1 tc2 : ℚ)
    (hfin : ∀ t, t < sd.T → t ≠ 0 → ¬sd.dates t < start →
      pvIsNum (turnoverOf sd pf start t) = true)
    (h12 : tc1 ≤ tc2) :
    ∃ q1 q2, cumReturn sd pf start tc1 = PV.num q1 ∧
      cumReturn sd pf start tc2 = PV.num q2 ∧ q2 ≤ q1 ∧
      ((tc1 < tc2 ∧ ∃ t, t < sd.T ∧ t ≠ 0 ∧ ¬sd.dates t < start ∧
          0 < pvNumVal (turnoverOf sd pf start t)) → q2 < q1) := by
  have hval : ∀ tc : ℚ, ∀ t,
      t ∈ (List.range sd.T).filter (fun u => decide (start < sd.dates u)) →
      (rebLoop sd pf start tc).r t =
        PV.num (if t ≠ 0 ∧ ¬sd.dates t < start then
          stepBase sd pf t - pvNumVal (turnoverOf sd pf start t) * tc
          else 0) := by
    intro tc t htL
    rw [List.mem_filter, List.mem_range] at htL
    obtain ⟨h1, _⟩ := htL
    rw [rebLoop_r]
    by_cases hact : t ≠ 0 ∧ ¬sd.dates t < start
    · rw [if_pos ⟨h1, hact⟩, if_pos hact, stepVal,
        pvIsNum_eq _ (hfin t h1 hact.1 hact.2), pvMul_num, pvSub_num]
      rfl
    · rw [if_neg (fun hc => hact hc.2), if_neg hact]
  have hcum : ∀ tc : ℚ, cumReturn sd pf start tc =
      PV.num ((((List.range sd.T).filter
        (fun u => decide (start < sd.dates u))).map
          (fun t => if t ≠ 0 ∧ ¬sd.dates t < start then
            stepBase sd pf t - pvNumVal (turnoverOf sd pf start t) * tc
            else 0)).sum) := by
    intro tc
    unfold cumReturn rebalance
    rw [List.map_map]
    have h1 : ((List.range sd.T).filter
        (fun u => decide (start < sd.dates u))).map
          (Prod.snd ∘ fun t => (sd.dates t, (rebLoop sd pf start tc).r t)) =
        ((List.range sd.T).filter (fun u => decide (start < sd.dates u))).map
          (fun t => PV.num (if t ≠ 0 ∧ ¬sd.dates t < start then
            stepBase sd pf t - pvNumVal (turnoverOf sd pf start t) * tc
            else 0)) :=
      List.map_congr_left (fun t ht => hval tc t ht)
    have h2 : ((List.range sd.T).filter
        (fun u => decide (start < sd.dates u))).map
          (fun t => PV.num (if t ≠ 0 ∧ ¬sd.dates t < start then
            stepBase sd pf t - pvNumVal (turnoverOf sd pf start t) * tc
            else 0)) =
        (((List.range sd.T).filter (fun u => decide (start < sd.dates u))).map
          (fun t => if t ≠ 0 ∧ ¬sd.dates t < start then
            stepBase sd pf t - pvNumVal (turnoverOf sd pf start t) * tc
            else 0)).map PV.num := by
      rw [List.map_map]
      rfl
    rw [h1, h2, pvSumSkipna_num]
  have hq0 : ∀ t, t < sd.T → t ≠ 0 → ¬sd.dates t < start →
      0 ≤ pvNumVal (turnoverOf sd pf start t) := by
    intro t h1 h2 h3
    exact turnover_nonneg sd pf start t _ (pvIsNum_eq _ (hfin t h1 h2 h3))
  have hpt : ∀ t ∈ (List.range sd.T).filter
      (fun u => decide (start < sd.dates u)),
      (if t ≠ 0 ∧ ¬sd.dates t < start then
        stepBase sd pf t - pvNumVal (turnoverOf sd pf start t) * tc2
        else 0) ≤
      (if t ≠ 0 ∧ ¬sd.dates t < start then
        stepBase sd pf t - pvNumVal (turnoverOf sd pf start t) * tc1
        else 0) := by
    intro t htL
    rw [List.mem_filter, List.mem_range] at htL
    by_cases hact : t ≠ 0 ∧ ¬sd.dates t < start
    · rw [if_pos hact, if_pos hact]
      exact sub_le_sub_left
        (mul_le_mul_of_nonneg_left h12 (hq0 t htL.1 hact.1 hact.2)) _
    · rw [if_neg hact, if_neg hact]
  refine ⟨_, _, hcum tc1, hcum tc2, list_sum_le _ _ _ hpt, ?_⟩
  rintro ⟨hlt, t0, ht0T, h00, h0s, h0pos⟩
  have hstrict : start < sd.dates t0 := by
    have hex : ∃ j, j < t0 ∧ ¬(j = 0 ∨ sd.dates j < start) := by
      by_contra hno
      push_neg at hno
      have hz := (first_active_current_nan sd pf start t0 h00 hno).2
      rw [hz] at h0pos
      simp [pvNumVal] at h0pos
    obtain ⟨j, hj, hjact⟩ := hex
    push_neg at hjact
    exact lt_of_le_of_lt hjact.2 (sd.dates_mono j t0 hj ht0T)
  have hmem : t0 ∈ (List.range sd.T).filter
      (fun u => decide (start < sd.dates u)) :=
    List.mem_filter.mpr ⟨List.mem_range.mpr ht0T, decide_eq_true hstrict⟩
  refine list_sum_lt _ _ _ hpt t0 hmem ?_
  rw [if_pos ⟨h00, h0s⟩, if_pos ⟨h00, h0s⟩]
  exact sub_lt_sub_left (mul_lt_mul_of_pos_left hlt h0pos) _

/-- When the drifted-weight denominator is nonzero, the turnover is the
plain finite sum of absolute weight changes. -/
lemma turnoverOf_num_of_denom_ne {N : ℕ} (sd : StockData N)
    (pf : ℕ → Fin N → ℚ) (start : ℤ) (t : ℕ)
    (hden : (∑ b, (1 + sd.ret (t - 1) b) * weightRow sd pf start (t - 1) b)
      ≠ 0) :
    turnoverOf sd pf start t =
      PV.num (∑ a, |pf (t - 1) a -
        ((1 + sd.ret (t - 1) a) * weightRow sd pf start (t - 1) a) /
          (∑ b, (1 + sd.ret (t - 1) b) * weightRow sd pf start (t - 1) b)|)
      := by
  unfold turnoverOf
  have hcur : ∀ a, currentWeight sd pf start t a =
      PV.num (((1 + sd.ret (t - 1) a) * weightRow sd pf start (t - 1) a) /
        (∑ b, (1 + sd.ret (t - 1) b) * weightRow sd pf start (t - 1) b)) := by
    intro a
    unfold currentWeight qdivPV
    rw [if_pos hden]
  have h1 : (List.ofFn (fun a =>
      pvAbs (pvSub (PV.num (pf (t - 1) a)) (currentWeight sd pf start t a))))
      = (List.ofFn (fun a => |pf (t - 1) a -
          ((1 + sd.ret (t - 1) a) * weightRow sd pf start (t - 1) a) /
            (∑ b, (1 + sd.ret (t - 1) b) *
              weightRow sd pf start (t - 1) b)|)).map PV.num := by
    rw [List.map_ofFn]
    exact congrArg List.ofFn (funext fun a => by
      rw [hcur a, pvSub_num]
      rfl)
  rw [h1, pvSumSkipna_num, List.sum_ofFn]

lemma wrow_sdEx_1 : weightRow sdEx pfEx 1 1 = pfEx 0 := by
  unfold weightRow
  rw [if_pos ⟨by decide, by decide⟩]

lemma hden_sdEx_2 :
    (∑ b, (1 + sdEx.ret (2 - 1) b) * weightRow sdEx pfEx 1 (2 - 1) b) = 1
    := by
  rw [show (2 : ℕ) - 1 = 1 from rfl, Fin.sum_univ_two, wrow_sdEx_1]
  norm_num [sdEx, pfEx]

lemma turnover_sdEx_2 : turnoverOf sdEx pfEx 1 2 = PV.num 1 := by
  rw [turnoverOf_num_of_denom_ne sdEx pfEx 1 2
    (by rw [hden_sdEx_2]; exact one_ne_zero)]
  congr 1
  rw [show (2 : ℕ) - 1 = 1 from rfl, Fin.sum_univ_two]
  rw [show (∑ b, (1 + sdEx.ret 1 b) * weightRow sdEx pfEx 1 1 b) = 1 from
    hden_sdEx_2]
  rw [wrow_sdEx_1]
  norm_num [sdEx, pfEx]
  rw [abs_of_pos (by norm_num : (0 : ℚ) < 1 / 2)]
  norm_num

lemma hfin_sdEx : ∀ t, t < sdEx.T → t ≠ 0 → ¬sdEx.dates t < 1 →
    pvIsNum (turnoverOf sdEx pfEx 1 t) = true := by
  intro t h1 h2 h3
  have h1' : t < 3 := h1
  interval_cases t
  · exact absurd rfl h2
  · rw [(first_active_current_nan sdEx pfEx 1 1 (by decide) (by decide)).2]
    rfl
  · rw [turnover_sdEx_2]
    rfl

/-- Witness for C9 at a concrete run: the finiteness hypothesis holds
and the cost rates 0 ≤ 1 are compared. -/
theorem transaction_cost_monotone_witness :
    ((∀ t, t < sdEx.T → t ≠ 0 → ¬sdEx.dates t < 1 →
        pvIsNum (turnoverOf sdEx pfEx 1 t) = true) ∧ (0 : ℚ) ≤ 1) ∧
    (∃ q1 q2, cumReturn sdEx pfEx 1 0 = PV.num q1 ∧
      cumReturn sdEx pfEx 1 1 = PV.num q2 ∧ q2 ≤ q1 ∧
      (((0 : ℚ) < 1 ∧ ∃ t, t < sdEx.T ∧ t ≠ 0 ∧ ¬sdEx.dates t < 1 ∧
          0 < pvNumVal (turnoverOf sdEx pfEx 1 t)) → q2 < q1)) :=
  ⟨⟨hfin_sdEx, by norm_num⟩,
    transaction_cost_monotone sdEx pfEx 1 0 1 hfin_sdEx (by norm_num)⟩

/-- One-asset, two-step return window used to separate the `ddof=0`
and `ddof=1` deviation conventions. -/
def l7 : List (Fin 1 → ℚ) := [fun _ => 0, fun _ => 1]

lemma mean_l7 : windowMean l7 0 = 1 / 2 := by
  norm_num [windowMean, l7]

lemma cov_l7 : windowCov l7 0 0 = 1 / 2 := by
  norm_num [windowCov, windowMean, l7, Matrix.of_apply]

lemma popvar_l7 : popVar l7 0 = 1 / 4 := by
  norm_num [popVar, windowMean, l7]

/-- C7 counterexample: the objective `robust_optimization` maximizes,
`-fobj`, does NOT equal the spec's formula with the per-asset SAMPLE
(`ddof=1`) standard deviation: on the window `[0, 1]` of one asset at
the budget-feasible weight `w = 1`, the code's objective is `0` (its
deviation is the population `ddof=0` one, `sqrt(1/4) = 1/2 = μ`), while
the spec formula's value `(1/2 - sqrt(1/2)) / sqrt(1/2)` is nonzero. -/
theorem robust_objective_sample_std_cx :
    -(robustFobj Real.sqrt l7 (fun _ => (1 : ℝ))) ≠
      robustObjectiveSpec Real.sqrt l7 (fun _ => (1 : ℝ)) := by
  have hm : ((windowMean l7 0 : ℚ) : ℝ) = 1 / 2 := by
    rw [mean_l7]; norm_num
  have hc : ((windowCov l7 0 0 : ℚ) : ℝ) = 1 / 2 := by
    rw [cov_l7]; norm_num
  have hp : ((popVar l7 0 : ℚ) : ℝ) = 1 / 4 := by
    rw [popvar_l7]; norm_num
  have hs4 : Real.sqrt (1 / 4) = 1 / 2 := by
    rw [show (1 / 4 : ℝ) = (1 / 2) ^ 2 by norm_num]
    exact Real.sqrt_sq (by norm_num)
  have hs2pos : 0 < Real.sqrt (1 / 2) := Real.sqrt_pos.mpr (by norm_num)
  have hs2ne : Real.sqrt (1 / 2) ≠ 1 / 2 := by
    intro h
    have h2 := Real.sq_sqrt (by norm_num : (0 : ℝ) ≤ 1 / 2)
    rw [h] at h2
    norm_num at h2
  unfold robustFobj robustObjectiveSpec
  simp only [Fin.sum_univ_one, hm, hc, hp, hs4, abs_one, one_mul, mul_one]
  rw [show (1 / 2 - 1 / 2 : ℝ) = 0 by norm_num, neg_div, neg_neg, zero_div]
  intro h
  have h0 : (1 / 2 - Real.sqrt (1 / 2) : ℝ) ≠ 0 :=
    sub_ne_zero.mpr (fun hcontra => hs2ne hcontra.symm)
  exact (div_ne_zero h0 (ne_of_gt hs2pos)) h.symm

/-- C7 amended: for every window and weight vector, the objective
`robust_optimization` maximizes (the negation of the `fobj` it
minimizes) equals `(w·μ - Σ_a |w_a|·σ_a) / sqrt(w'Σw)` where μ is the
window sample mean, Σ the `ddof=1` sample covariance, and σ_a the
POPULATION (`ddof=0`) standard deviation `sqrt(popVar)` — the deviation
convention of `np.std` — not the `ddof=1` sample standard deviation. -/
theorem robust_objective_population_std {N : ℕ} {K : Type}
    [LinearOrderedField K] (sq : K → K) (l : List (Fin N → ℚ))
    (w : Fin N → K) :
    -(robustFobj sq l w) =
      ((∑ a, w a * ((windowMean l a : ℚ) : K)) -
        ∑ a, |w a| * sq ((popVar l a : ℚ) : K)) /
      sq (∑ a, ∑ b, w a * ((windowCov l a b : ℚ) : K) * w b) := by
  unfold robustFobj
  rw [neg_div, neg_neg]

lemma finsetSum_listSum {ι α : Type} [Fintype ι] (l : List α)
    (f : ι → α → ℚ) :
    (∑ i, (l.map (f i)).sum) = (l.map (fun r => ∑ i, f i r)).sum := by
  induction l with
  | nil => simp
  | cons x xs ih =>
    simp [List.map_cons, List.sum_cons, Finset.sum_add_distrib, ih]

lemma windowCov_mulVec_apply {N : ℕ} (l : List (Fin N → ℚ)) (x : Fin N → ℚ)
    (a : Fin N) :
    (windowCov l).mulVec x a =
      (l.map (fun r => (r a - windowMean l a) *
        (∑ b, (r b - windowMean l b) * x b))).sum / ((l.length : ℚ) - 1)
      := by
  have h0 : (windowCov l).mulVec x a = ∑ b, windowCov l a b * x b := by
    simp [Matrix.mulVec, Matrix.dotProduct]
  rw [h0]
  simp only [windowCov, Matrix.of_apply, div_mul_eq_mul_div]
  rw [← Finset.sum_div]
  congr 1
  have h1 : ∀ b : Fin N,
      (l.map (fun r => (r a - windowMean l a) * (r b - windowMean l b))).sum
        * x b =
      (l.map (fun r => (r a - windowMean l a) * (r b - windowMean l b)
        * x b)).sum := by
    intro b
    rw [← List.sum_map_mul_right]
  simp only [h1]
  rw [finsetSum_listSum]
  refine congrArg List.sum (List.map_congr_left (fun r _ => ?_))
  rw [Finset.mul_sum]
  exact Finset.sum_congr rfl (fun b _ => mul_assoc _ _ _)

lemma windowCov_quadform {N : ℕ} (l : List (Fin N → ℚ)) (x : Fin N → ℚ) :
    (∑ a, (windowCov l).mulVec x a * x a) =
      (l.map (fun r => (∑ b, (r b - windowMean l b) * x b) ^ 2)).sum /
        ((l.length : ℚ) - 1) := by
  simp only [windowCov_mulVec_apply, div_mul_eq_mul_div]
  rw [← Finset.sum_div]
  congr 1
  have h1 : ∀ a : Fin N,
      (l.map (fun r => (r a - windowMean l a) *
        (∑ b, (r b - windowMean l b) * x b))).sum * x a =
      (l.map (fun r => (r a - windowMean l a) *
        (∑ b, (r b - windowMean l b) * x b) * x a)).sum := by
    intro a
    rw [← List.sum_map_mul_right]
  simp only [h1]
  rw [finsetSum_listSum]
  refine congrArg List.sum (List.map_congr_left (fun r _ => ?_))
  have h2 : ∀ a : Fin N, (r a - windowMean l a) *
      (∑ b, (r b - windowMean l b) * x b) * x a =
      (∑ b, (r b - windowMean l b) * x b) *
        ((r a - windowMean l a) * x a) :=
    fun a => by ring
  simp only [h2]
  rw [← Finset.mul_sum, sq]

lemma list_sum_sq_eq_zero {α : Type} (l : List α) (g : α → ℚ)
    (h : (l.map (fun r => g r ^ 2)).sum = 0) : ∀ r ∈ l, g r = 0 := by
  induction l with
  | nil => intro r hr; cases hr
  | cons x xs ih =>
    rw [List.map_cons, List.sum_cons] at h
    have h1 : 0 ≤ g x ^ 2 := sq_nonneg _
    have h2 : 0 ≤ (xs.map (fun r => g r ^ 2)).sum := by
      apply List.sum_nonneg
      intro y hy
      rw [List.mem_map] at hy
      obtain ⟨r, _, rfl⟩ := hy
      exact sq_nonneg _
    have hx : g x ^ 2 = 0 := by linarith
    have hxs : (xs.map (fun r => g r ^ 2)).sum = 0 := by linarith
    intro r hr
    rcases List.mem_cons.mp hr with rfl | hr'
    · exact pow_eq_zero_iff two_ne_zero |>.mp hx
    · exact ih hxs r hr'

/-- C5: whenever the expanding-window sample covariance is nonsingular,
`min_var` succeeds and its weight vector `w` satisfies
`Σ · w = c · 1⃗` for a scalar `c` together with `sum(w) = 1` — the
closed-form solution of `Σ w = 1⃗` followed by normalization, with no
optimizer involved (the solver's definition is the direct linear
solve). -/
theorem min_var_closed_form {N : ℕ} (sd : StockData N) (when : ℕ)
    (hN : 0 < N) (_hT : when < sd.T)
    (hdet : (windowCov (get_ret_til sd when)).det ≠ 0) :
    ∃ w c, min_var sd when = some w ∧
      (windowCov (get_ret_til sd when)).mulVec w = (fun _ => c) ∧
      (∑ a, w a) = 1 := by
  have hsome : min_var sd when = some (fun a =>
      ((windowCov (get_ret_til sd when)).det⁻¹ •
        (windowCov (get_ret_til sd when)).adjugate.mulVec (fun _ => 1)) a /
      ∑ b, ((windowCov (get_ret_til sd when)).det⁻¹ •
        (windowCov (get_ret_til sd when)).adjugate.mulVec (fun _ => 1)) b)
      := by
    show (if (windowCov (get_ret_til sd when)).det = 0 then none
      else some _) = some _
    rw [if_neg hdet]
  have hlin : (windowCov (get_ret_til sd when)).mulVec
      ((windowCov (get_ret_til sd when)).det⁻¹ •
        (windowCov (get_ret_til sd when)).adjugate.mulVec (fun _ => 1)) =
      (fun _ => 1) := by
    rw [Matrix.mulVec_smul, Matrix.mulVec_mulVec, Matrix.mul_adjugate,
      Matrix.smul_mulVec_assoc, Matrix.one_mulVec, smul_smul,
      inv_mul_cancel₀ hdet, one_smul]
  have hm1 : (((get_ret_til sd when).length : ℚ) - 1) ≠ 0 := by
    intro h0
    apply hdet
    have hCzero : windowCov (get_ret_til sd when) = 0 := by
      unfold windowCov
      ext a b
      rw [Matrix.of_apply, h0, div_zero]
      rfl
    rw [hCzero]
    exact Matrix.det_zero ⟨⟨0, hN⟩⟩
  have hs : (∑ b, ((windowCov (get_ret_til sd when)).det⁻¹ •
      (windowCov (get_ret_til sd when)).adjugate.mulVec (fun _ => 1)) b)
      ≠ 0 := by
    intro hzero
    have hdot : (∑ a, (windowCov (get_ret_til sd when)).mulVec
        ((windowCov (get_ret_til sd when)).det⁻¹ •
          (windowCov (get_ret_til sd when)).adjugate.mulVec (fun _ => 1)) a *
        ((windowCov (get_ret_til sd when)).det⁻¹ •
          (windowCov (get_ret_til sd when)).adjugate.mulVec (fun _ => 1)) a)
        = 0 := by
      rw [hlin]
      simpa using hzero
    rw [windowCov_quadform] at hdot
    have hsq : ((get_ret_til sd when).map
        (fun r => (∑ b, (r b - windowMean (get_ret_til sd when) b) *
          ((windowCov (get_ret_til sd when)).det⁻¹ •
            (windowCov (get_ret_til sd when)).adjugate.mulVec
              (fun _ => 1)) b) ^ 2)).sum = 0 := by
      rcases div_eq_zero_iff.mp hdot with h | h
      · exact h
      · exact absurd h hm1
    have hDzero := list_sum_sq_eq_zero _ _ hsq
    have hCr0 : ∀ a, (windowCov (get_ret_til sd when)).mulVec
        ((windowCov (get_ret_til sd when)).det⁻¹ •
          (windowCov (get_ret_til sd when)).adjugate.mulVec (fun _ => 1)) a
        = 0 := by
      intro a
      rw [windowCov_mulVec_apply]
      rw [List.map_congr_left (fun r hr => by rw [hDzero r hr, mul_zero])]
      simp
    have h1a := congrFun hlin ⟨0, hN⟩
    rw [hCr0 ⟨0, hN⟩] at h1a
    exact absurd h1a (by norm_num)
  refine ⟨_, (∑ b, ((windowCov (get_ret_til sd when)).det⁻¹ •
    (windowCov (get_ret_til sd when)).adjugate.mulVec (fun _ => 1)) b)⁻¹,
    hsome, ?_, ?_⟩
  · have hwsm : (fun a =>
        ((windowCov (get_ret_til sd when)).det⁻¹ •
          (windowCov (get_ret_til sd when)).adjugate.mulVec (fun _ => 1)) a /
        ∑ b, ((windowCov (get_ret_til sd when)).det⁻¹ •
          (windowCov (get_ret_til sd when)).adjugate.mulVec (fun _ => 1)) b)
        = (∑ b, ((windowCov (get_ret_til sd when)).det⁻¹ •
            (windowCov (get_ret_til sd when)).adjugate.mulVec
              (fun _ => 1)) b)⁻¹ •
          ((windowCov (get_ret_til sd when)).det⁻¹ •
            (windowCov (get_ret_til sd when)).adjugate.mulVec (fun _ => 1))
        := by
      funext a
      simp [Pi.smul_apply, smul_eq_mul, div_eq_inv_mul]
    rw [hwsm, Matrix.mulVec_smul, hlin]
    funext a
    rw [Pi.smul_apply, smul_eq_mul, mul_one]
  · rw [← Finset.sum_div, div_self hs]

/-- Concrete two-asset, three-step panel whose expanding-window sample
covariance at cursor 2 is nonsingular. -/
def sd5 : StockData 2 :=
  { T := 3,
    dates := fun t => (t : ℤ),
    ret := fun t a =>
      if t = 0 then 0
      else if t = 1 then (if a = 0 then 1 else 0)
      else (if a = 0 then 0 else 1),
    prc := fun _ _ => 1,
    shrout := fun _ _ => 1,
    dates_mono := by
      intro i j hij _
      show (i : ℤ) < (j : ℤ)
      exact_mod_cast hij }

lemma win_sd5 : get_ret_til sd5 2 = [sd5.ret 0, sd5.ret 1, sd5.ret 2] := by
  rw [get_ret_til_eq sd5 2 (by decide)]
  rfl

lemma det_sd5 : (windowCov (get_ret_til sd5 2)).det = 1 / 12 := by
  rw [Matrix.det_fin_two, win_sd5]
  norm_num [windowCov, windowMean, Matrix.of_apply, sd5]

/-- Witness for C5 at the concrete panel (covariance determinant
`1/12 ≠ 0`). -/
theorem min_var_closed_form_witness :
    ((0 < 2 ∧ 2 < sd5.T ∧ (windowCov (get_ret_til sd5 2)).det ≠ 0) ∧
      ∃ w c, min_var sd5 2 = some w ∧
        (windowCov (get_ret_til sd5 2)).mulVec w = (fun _ => c) ∧
        (∑ a, w a) = 1) :=
  ⟨⟨by norm_num, by decide, by rw [det_sd5]; norm_num⟩,
    min_var_closed_form sd5 2 (by norm_num) (by decide)
      (by rw [det_sd5]; norm_num)⟩

end PM
